import Mathlib

/-!
Verification of the b3p laminate-planning and FE-deck code
(`build_plybook.py`, `mesh2ccx.py`).  Numeric values are embedded as
rationals; Python `exit()` and uncaught `KeyError` are embedded as
`Option` results (`none` = the run aborts).
-/

/-- Python `round` (banker's rounding): round to the nearest integer,
ties to the even integer. -/
def roundHalfEven (q : ℚ) : ℤ :=
  if Int.fract q < 1/2 then ⌊q⌋
  else if 1/2 < Int.fract q then ⌊q⌋ + 1
  else if Even ⌊q⌋ then ⌊q⌋ else ⌊q⌋ + 1

/-- Python `int()` / numpy `astype(int)` on a float: truncation toward zero. -/
def pyInt (q : ℚ) : ℤ := if 0 ≤ q then ⌊q⌋ else ⌈q⌉

/-- Python `round(y, -1)`: round to the nearest multiple of 10, ties to even. -/
def round10 (y : ℚ) : ℚ := 10 * roundHalfEven (y / 10)

/-- The radius rounding used in `plyify`: `round(x * 1e3, -1) * 1e-3`,
i.e. round to the nearest 10 mm with the radius expressed in metres. -/
def roundMM (x : ℚ) : ℚ := round10 (x * 1000) / 1000

/-- Number of plies the first `while` loop of `plyify` leaves open at local
thickness `ti`: the smallest `n` with `ti <= n * pt` (requires `pt > 0`,
otherwise the Python loop diverges). -/
def openCount (ti pt : ℚ) : ℕ := (Int.ceil (ti / pt)).toNat

/-- The second `while` loop of `plyify`: pop open plies (most recent first)
while `ti <= (len(active) - 1) * pt`, closing each at radius `ri`.  The
stack `active` has its most recently opened ply at the head. -/
def drain (ri ti pt : ℚ) : List ℚ → List (ℚ × ℚ) → List ℚ × List (ℚ × ℚ)
  | [], done => ([], done)
  | a :: rest, done =>
    if ti ≤ (rest.length : ℚ) * pt then drain ri ti pt rest (done ++ [(a, ri)])
    else (a :: rest, done)

/-- The main scan of `plyify` over the (radius, thickness) samples. -/
def plyifyLoop (pt : ℚ) : List (ℚ × ℚ) → List ℚ → List (ℚ × ℚ) → List ℚ × List (ℚ × ℚ)
  | [], active, done => (active, done)
  | (ri, ti) :: rest, active, done =>
    let opened := List.replicate (openCount ti pt - active.length) ri ++ active
    let ad := drain ri ti pt opened done
    plyifyLoop pt rest ad.1 ad.2

/-- `plyify(r, t, ply_thickness, reverse)` from `build_plybook.py`: scan the
sampled thickness curve keeping a stack of open plies, close the remaining
ones at the last radius, round both radii of every ply to the nearest
10 mm, and reverse the list unless `reverse` is set. -/
def plyify (r t : List ℚ) (pt : ℚ) (rev : Bool) : List (ℚ × ℚ) :=
  let ad := plyifyLoop pt (r.zip t) [] []
  let rlast := r.getLast?.getD 0
  let closed := ad.2 ++ ad.1.reverse.map (fun s => (s, rlast))
  let rounded := closed.map (fun p => (roundMM p.1, roundMM p.2))
  if rev then rounded else rounded.reverse

/-- Python `min` of a list (0 for the empty list, where Python would raise). -/
def listMinL : List ℚ → ℚ
  | [] => 0
  | x :: xs => xs.foldl min x

/-- Python `max` of a list (0 for the empty list, where Python would raise). -/
def listMaxL : List ℚ → ℚ
  | [] => 0
  | x :: xs => xs.foldl max x

/-- `np.linspace(lo, hi, n)`: `n` evenly spaced samples from `lo` to `hi`. -/
def linspace (lo hi : ℚ) (n : ℕ) : List ℚ :=
  (List.range n).map (fun (i : ℕ) => lo + (hi - lo) * (i : ℚ) / ((n : ℚ) - 1))

/-- `np.interp(x, xp, fp)` for ascending `xp`: clamp outside the range,
linear interpolation between bracketing samples inside. -/
def linInterp (x : ℚ) : List ℚ → List ℚ → ℚ
  | [], _ => 0
  | [_], f0 :: _ => f0
  | x0 :: x1 :: xs, f0 :: f1 :: fs =>
    if x ≤ x0 then f0
    else if x ≤ x1 then f0 + (x - x0) * (f1 - f0) / (x1 - x0)
    else linInterp x (x1 :: xs) (f1 :: fs)
  | _, _ => 0

/-- `ply_stack` from `build_plybook.py`: resample the r-t curve onto
`subdivisions` points, `plyify` it, and prefix each ply with
`[material, t_ply]`.  (The stack entry layout is `(material, thickness,
start_radius, end_radius)`.) -/
def ply_stack (r t : List ℚ) (t_ply : ℚ) (rev : Bool) (subdivisions : ℕ)
    (material : ℤ) : List (ℤ × ℚ × ℚ × ℚ) :=
  let x := linspace (listMinL r) (listMaxL r) subdivisions
  let y := x.map (fun xi => linInterp xi r t)
  (plyify x y t_ply rev).map (fun p => (material, t_ply, p.1, p.2))

/-- Thickness assigned by `coreblock` to one consecutive pair of samples:
the shared value when the endpoint thicknesses agree, their mean otherwise. -/
def segThickness (tmin tmax : ℚ) : ℚ := if tmin = tmax then tmin else (tmin + tmax) / 2

/-- The consecutive `((r_i, r_i+1), (t_i, t_i+1))` pairs scanned by `coreblock`. -/
def coreblockPairs (r t : List ℚ) : List ((ℚ × ℚ) × ℚ × ℚ) :=
  (r.zip r.tail).zip (t.zip t.tail)

/-- `coreblock` from `build_plybook.py`: one block `[material, tt, rmin, rmax]`
per consecutive pair of radius stations whose thickness `tt` is positive.
(The source also computes interpolated arrays `x`, `y` that it never uses;
they are omitted here.) -/
def coreblock (r t : List ℚ) (material : ℤ) : List (ℤ × ℚ × ℚ × ℚ) :=
  (coreblockPairs r t).filterMap (fun q =>
    if 0 < segThickness q.2.1 q.2.2 then
      some (material, segThickness q.2.1 q.2.2, q.1.1, q.1.2)
    else none)

/-- One of the two arithmetic id sequences of `number_stack`:
`key + idx * increment` for `idx < count`. -/
def seqArith (key inc : ℤ) (count : ℕ) : List ℤ :=
  (List.range count).map (fun (idx : ℕ) => key + (idx : ℤ) * inc)

/-- `chain.from_iterable(zip_longest(xs, ys))` with `None` filtered out:
alternate the two lists one-for-one, then continue with the longer. -/
def interleave : List ℤ → List ℤ → List ℤ
  | [], ys => ys
  | x :: xs, [] => x :: xs
  | x :: xs, y :: ys => x :: y :: interleave xs ys

/-- `number_stack` from `build_plybook.py`: abort (`none`) unless the split
fractions sum to exactly 1; otherwise round `len(stack) * split` half-to-even
to two counts (numpy `round`), build the two arithmetic sequences and
interleave them.  Only `stack.length` is read from the stack. -/
def number_stack {α : Type} (stack : List α) (splitstack : ℚ × ℚ)
    (key : ℤ × ℤ) (increment : ℤ × ℤ) : Option (List ℤ) :=
  if splitstack.1 + splitstack.2 = 1 then
    let c0 := (roundHalfEven ((stack.length : ℚ) * splitstack.1)).toNat
    let c1 := (roundHalfEven ((stack.length : ℚ) * splitstack.2)).toNat
    some (interleave (seqArith key.1 increment.1 c0) (seqArith key.2 increment.2 c1))
  else none

/-- Total ply thickness a stack provides at radius station `s`: the sum of
the thickness field over the entries whose `[start, end]` interval contains
`s` (the measured quantity of the round-trip property). -/
def totalPlyThickness (stack : List (ℤ × ℚ × ℚ × ℚ)) (s : ℚ) : ℚ :=
  ((stack.filter (fun e => decide (e.2.2.1 ≤ s ∧ s ≤ e.2.2.2))).map
    (fun e => e.2.1)).sum

/-- Material database entry (`mesh2ccx.py`): the keys of the YAML mapping
that `material_db_to_ccx` inspects.  A missing key is `none`; reading a
missing key raises in Python, embedded as an aborted (`none`) result. -/
structure MatProps where
  name : String
  vf : Option ℚ
  C : Option (Fin 6 → Fin 6 → ℚ)
  e11 : Option ℚ
  e22 : Option ℚ
  e33 : Option ℚ
  nu12 : Option ℚ
  nu31 : Option ℚ
  nu23 : Option ℚ
  g12 : Option ℚ
  g31 : Option ℚ
  g23 : Option ℚ
  nu : Option ℚ
  tEx : Option ℚ
  E : Option ℚ

/-- Single in-place array update `M[i, j] = v` on a 6x6 matrix. -/
def upd (M : Fin 6 → Fin 6 → ℚ) (i j : Fin 6) (v : ℚ) : Fin 6 → Fin 6 → ℚ :=
  fun a b => if a = i ∧ b = j then v else M a b

/-- The nine stiffness numbers printed on an orthotropic `*elastic` card:
the source aliases `D = C`, performs the eight in-place coupling-term
assignments on the shared array, scales by `1e6` and prints
`D00,D01,D11,D02,D12,D22,D33,D44,D55`. -/
def orthoVals (C : Fin 6 → Fin 6 → ℚ) : List ℚ :=
  let M1 := upd C 0 3 (C 0 5)
  let M2 := upd M1 0 5 (M1 0 3)
  let M3 := upd M2 1 3 (M2 1 5)
  let M4 := upd M3 1 5 (M3 1 3)
  let M5 := upd M4 2 3 (M4 2 5)
  let M6 := upd M5 2 5 (M5 2 3)
  let M7 := upd M6 3 3 (M6 5 5)
  let M8 := upd M7 5 5 (M7 3 3)
  [1000000 * M8 0 0, 1000000 * M8 0 1, 1000000 * M8 1 1,
   1000000 * M8 0 2, 1000000 * M8 1 2, 1000000 * M8 2 2,
   1000000 * M8 3 3, 1000000 * M8 4 4, 1000000 * M8 5 5]

/-- One emitted CalculiX material card: orthotropic stiffness-matrix card,
engineering-constants card, or isotropic card (payload values in deck
units, material id from the mesh). -/
inductive CcxCard where
  | ortho (mid : ℤ) (vals : List ℚ)
  | engineering (mid : ℤ) (vals : List ℚ)
  | iso (mid : ℤ) (E nu : ℚ)
deriving DecidableEq

/-- Constitutive-model selection and card payload for one material of
`material_db_to_ccx`.  The first branch mirrors the source condition
`"vf" in mp or ("C" in mp and not force_iso)` (Python precedence), the
second `"e11" in mp and not force_iso`, the final fallback is isotropic
with Poisson's ratio clamped to `[0.1, 0.45]`. -/
def emitCard (force_iso : Bool) (i : ℚ) (mp : MatProps) : Option CcxCard :=
  if mp.vf.isSome ∨ (mp.C.isSome ∧ ¬force_iso) then
    mp.C.map (fun C => CcxCard.ortho (pyInt i) (orthoVals C))
  else if mp.e11.isSome ∧ ¬force_iso then
    match mp.e11, mp.e22, mp.e33, mp.nu12, mp.nu31, mp.nu23, mp.g12, mp.g31, mp.g23 with
    | some a, some b, some c, some d, some e, some f, some g, some h, some k =>
      some (CcxCard.engineering (pyInt i) [a, b, c, d, e, f, g, h, k])
    | _, _, _, _, _, _, _, _, _ => none
  else
    match (match mp.nu with | some v => some v | none => mp.nu12),
          (match mp.tEx with | some v => some v | none => mp.E) with
    | some nuRaw, some eRaw =>
      some (CcxCard.iso (pyInt i) (1000000 * eRaw) (min (45/100) (max (1/10) nuRaw)))
    | _, _ => none

/-- `material_db_to_ccx` from `mesh2ccx.py`, at the level of material-card
generation: for every material id above the `1e-6` threshold, resolve it in
the composed id-to-properties map (`mm_inv` chained with the database) and
emit one card; a failed lookup or missing property key aborts (`none`). -/
def material_db_to_ccx (materials : List ℚ) (db : List (ℤ × MatProps))
    (force_iso : Bool) : Option (List CcxCard) :=
  (materials.filter (fun i => decide ((1 : ℚ)/1000000 < i))).mapM
    (fun i => (db.lookup (pyInt i)).bind (emitCard force_iso i))

/-- One `*cload` line of a loadcase block: node id, degree of freedom,
force value. -/
structure CloadLine where
  node : ℕ
  dof : ℕ
  value : ℚ
deriving DecidableEq

/-- The loadcase scan `for n, j in enumerate(ld)` of `get_loadcases`,
starting at node index `n`: emit a dof-1 line when `j[0]**2 > 1e-8` and a
dof-2 line when `j[1]**2 > 1e-8` (the third force component is not read). -/
def cloadLinesFrom (n : ℕ) : List (ℚ × ℚ × ℚ) → List CloadLine
  | [] => []
  | j :: rest =>
    (if j.1 ^ 2 > 1/100000000 then [⟨n + 1, 1, j.1⟩] else []) ++
    (if j.2.1 ^ 2 > 1/100000000 then [⟨n + 1, 2, j.2.1⟩] else []) ++
    cloadLinesFrom (n + 1) rest

/-- One loadcase block: header text, concentrated-load lines, and the
constant output-request trailer. -/
structure Loadcase where
  header : String
  cloads : List CloadLine
  footer : String
deriving DecidableEq

/-- The output-request cards appended after the `*cload` lines of every
loadcase step. -/
def ccxLcFooter : String :=
  "*node file,output=3d\nU,RF\n*EL FILE\nS,E\n*node print,nset=nall\nrf\n*end step\n"

/-- The reserved-name test `i.startswith("lc_")` on a point-data field name. -/
def isLc (s : String) : Bool := ['l', 'c', '_'].isPrefixOf s.data

/-- `get_loadcases` from `mesh2ccx.py`: one loadcase block per point-data
field whose name carries the `lc_` prefix; the force-correction multiplier
is always reset to `1.0` before the node scan. -/
def get_loadcases (pointData : List (String × List (ℚ × ℚ × ℚ))) :
    List (String × Loadcase) :=
  pointData.filterMap (fun f =>
    if isLc f.1 then
      some (f.1,
        ⟨"** " ++ f.1 ++ "\n*step\n*static\n*cload\n",
         cloadLinesFrom 0 (f.2.map (fun v => (1 * v.1, 1 * v.2.1, 1 * v.2.2))),
         ccxLcFooter⟩)
    else none)

/-- The global minimum of the out-of-plane (z) coordinate over the mesh
nodes (`mesh.points[:, 2].min()`; Python raises on an empty mesh). -/
def minZ : List (ℚ × ℚ × ℚ) → ℚ
  | [] => 0
  | p :: ps => ps.foldl (fun m q => min m q.2.2) p.2.2

/-- The node scan of `root_clamp`, starting at node index `n`: one
`"%i,1,3"` boundary line (node, first dof 1, last dof 3) per node whose z
coordinate equals `zmin`. -/
def rootClampFrom (zmin : ℚ) (n : ℕ) : List (ℚ × ℚ × ℚ) → List (ℕ × ℕ × ℕ)
  | [] => []
  | p :: rest =>
    (if p.2.2 = zmin then [(n + 1, 1, 3)] else []) ++ rootClampFrom zmin (n + 1) rest

/-- `root_clamp` from `mesh2ccx.py`: a boundary line constraining degrees
of freedom 1 through 3 for every node at the minimum z coordinate. -/
def root_clamp (pts : List (ℚ × ℚ × ℚ)) : List (ℕ × ℕ × ℕ) :=
  rootClampFrom (minZ pts) 0 pts

/-! Arithmetic facts about the rounding functions. -/

theorem roundHalfEven_bounds (q : ℚ) :
    ⌊q⌋ ≤ roundHalfEven q ∧ roundHalfEven q ≤ ⌊q⌋ + 1 := by
  unfold roundHalfEven
  split_ifs <;> omega

theorem roundHalfEven_mono {x y : ℚ} (h : x ≤ y) :
    roundHalfEven x ≤ roundHalfEven y := by
  rcases lt_or_le ⌊x⌋ ⌊y⌋ with hf | hf
  · calc roundHalfEven x ≤ ⌊x⌋ + 1 := (roundHalfEven_bounds x).2
    _ ≤ ⌊y⌋ := by omega
    _ ≤ roundHalfEven y := (roundHalfEven_bounds y).1
  · have hfe : ⌊y⌋ = ⌊x⌋ := le_antisymm hf (Int.floor_le_floor h)
    have hfr : Int.fract x ≤ Int.fract y := by
      unfold Int.fract
      rw [hfe]
      linarith
    unfold roundHalfEven
    rw [hfe]
    split_ifs <;> first | omega | linarith

theorem roundHalfEven_nonneg {q : ℚ} (h : 0 ≤ q) : 0 ≤ roundHalfEven q := by
  have := Int.floor_nonneg.mpr h
  unfold roundHalfEven
  split_ifs <;> omega

theorem roundHalfEven_add_int {x y : ℚ} {n : ℤ} (hxy : x + y = n)
    (hx : Int.fract x ≠ 1/2) :
    roundHalfEven x + roundHalfEven y = n := by
  rcases eq_or_ne (Int.fract x) 0 with h0 | h0
  · -- x is an integer, hence so is y
    have hxi : x = (⌊x⌋ : ℚ) := by
      have := Int.self_sub_fract x
      rw [h0] at this
      linarith
    have hyi : y = ((n - ⌊x⌋ : ℤ) : ℚ) := by push_cast; linarith
    have hfy : ⌊y⌋ = n - ⌊x⌋ := by rw [hyi, Int.floor_intCast]
    have hfry : Int.fract y = 0 := by rw [hyi, Int.fract_intCast]
    unfold roundHalfEven
    rw [hfry, h0, hfy]
    split_ifs <;> first | omega | norm_num at *
  · -- fractional case: fract y = 1 - fract x, floor y = n - floor x - 1
    have hfxlt : Int.fract x < 1 := Int.fract_lt_one x
    have hfxpos : 0 < Int.fract x := lt_of_le_of_ne (Int.fract_nonneg x) (Ne.symm h0)
    have hfry : Int.fract y = 1 - Int.fract x := by
      have hy : y = (n : ℚ) + (-x) := by linarith
      rw [hy, Int.fract_int_add, Int.fract_neg h0]
    have hfy : ⌊y⌋ = n - ⌊x⌋ - 1 := by
      have h1 : (⌊y⌋ : ℚ) = y - Int.fract y := by
        rw [Int.self_sub_fract]
      have h2 : (⌊x⌋ : ℚ) = x - Int.fract x := by
        rw [Int.self_sub_fract]
      have : (⌊y⌋ : ℚ) = (n : ℚ) - (⌊x⌋ : ℚ) - 1 := by
        rw [h1, hfry]
        push_cast at h2 ⊢
        linarith
      exact_mod_cast this
    unfold roundHalfEven
    rw [hfry, hfy]
    split_ifs <;>
      first
        | omega
        | linarith
        | exact absurd (by linarith : Int.fract x = 1/2) hx

theorem roundMM_mono {x y : ℚ} (h : x ≤ y) : roundMM x ≤ roundMM y := by
  unfold roundMM round10
  have h1 : x * 1000 / 10 ≤ y * 1000 / 10 := by linarith
  have h2 : (roundHalfEven (x * 1000 / 10) : ℚ) ≤ roundHalfEven (y * 1000 / 10) := by
    exact_mod_cast roundHalfEven_mono h1
  linarith

theorem roundHalfEven_intCast (z : ℤ) : roundHalfEven (z : ℚ) = z := by
  unfold roundHalfEven
  rw [Int.fract_intCast, Int.floor_intCast]
  norm_num

theorem roundMM_intCast (z : ℤ) : roundMM (z : ℚ) = z := by
  unfold roundMM round10
  have h : ((z : ℚ) * 1000 / 10) = ((100 * z : ℤ) : ℚ) := by push_cast; ring
  rw [h, roundHalfEven_intCast]
  push_cast
  ring

theorem roundMM_zero : roundMM 0 = 0 := by simpa using roundMM_intCast 0

theorem roundMM_one : roundMM 1 = 1 := by simpa using roundMM_intCast 1

theorem roundMM_two : roundMM 2 = 2 := by simpa using roundMM_intCast 2

/-! Generic list helpers shared by several proofs. -/

theorem filterMapIf_length {α β : Type} (p : α → Prop) [DecidablePred p]
    (g : α → β) (l : List α) :
    (l.filterMap (fun a => if p a then some (g a) else none)).length
      = l.countP (fun a => decide (p a)) := by
  induction l with
  | nil => simp
  | cons a l ih =>
    by_cases h : p a <;>
      simp [List.filterMap_cons, List.countP_cons, h, ih]

theorem filterMapIf_sublist {α β : Type} (p : α → Prop) [DecidablePred p]
    (g : α → β) (l : List α) :
    (l.filterMap (fun a => if p a then some (g a) else none)).Sublist (l.map g) := by
  induction l with
  | nil => simp
  | cons a l ih =>
    by_cases h : p a
    · simpa [List.filterMap_cons, h] using ih.cons₂ (g a)
    · simpa [List.filterMap_cons, h] using ih.cons (g a)

theorem interleave_length (xs : List ℤ) : ∀ ys : List ℤ,
    (interleave xs ys).length = xs.length + ys.length := by
  induction xs with
  | nil => intro ys; simp [interleave]
  | cons x xs ih =>
    intro ys
    cases ys with
    | nil => simp [interleave]
    | cons y ys => simp [interleave, ih ys]; omega

theorem seqArith_length (k i : ℤ) (c : ℕ) : (seqArith k i c).length = c := by
  unfold seqArith
  rw [List.length_map, List.length_range]

/-! Facts about the `plyify` scan. -/

/-- Last element of `c :: l`: the radius at which remaining open plies are
closed after the scan. -/
def lastD : ℚ → List ℚ → ℚ
  | c, [] => c
  | _, x :: xs => lastD x xs

theorem lastD_ne_nil (c d : ℚ) (l : List ℚ) (h : l ≠ []) :
    lastD c l = l.getLast?.getD d := by
  induction l generalizing c with
  | nil => exact absurd rfl h
  | cons x xs ih =>
    cases xs with
    | nil => simp [lastD]
    | cons y ys =>
      rw [List.getLast?_cons_cons]
      exact ih x (by simp)

theorem foldl_max_of_chain : ∀ (l : List ℚ) (a : ℚ),
    List.Chain (· ≤ ·) a l → l.foldl max a = lastD a l := by
  intro l
  induction l with
  | nil => intro a _; simp [lastD]
  | cons x xs ih =>
    intro a hch
    rw [List.chain_cons] at hch
    obtain ⟨hax, hch⟩ := hch
    show (x :: xs).foldl max a = lastD a (x :: xs)
    rw [List.foldl_cons, max_eq_right hax]
    exact ih x hch

theorem drain_le (ri ti pt : ℚ) : ∀ (active : List ℚ) (done : List (ℚ × ℚ)),
    (∀ a ∈ active, a ≤ ri) → (∀ p ∈ done, p.1 ≤ p.2) →
    (∀ a ∈ (drain ri ti pt active done).1, a ≤ ri) ∧
    (∀ p ∈ (drain ri ti pt active done).2, p.1 ≤ p.2) := by
  intro active
  induction active with
  | nil => intro done _ h2; simpa [drain] using h2
  | cons a rest ih =>
    intro done h1 h2
    by_cases hc : ti ≤ (rest.length : ℚ) * pt
    · rw [drain, if_pos hc]
      apply ih
      · intro x hx; exact h1 x (List.mem_cons_of_mem _ hx)
      · intro p hp
        rcases List.mem_append.mp hp with h | h
        · exact h2 p h
        · have : p = (a, ri) := by simpa using h
          rw [this]
          exact h1 a (List.mem_cons_self a rest)
    · rw [drain, if_neg hc]
      exact ⟨h1, h2⟩

theorem plyifyLoop_le (pt : ℚ) : ∀ (ps : List (ℚ × ℚ)) (active : List ℚ)
    (done : List (ℚ × ℚ)) (c : ℚ),
    (∀ a ∈ active, a ≤ c) → (∀ p ∈ done, p.1 ≤ p.2) →
    List.Chain (· ≤ ·) c (ps.map Prod.fst) →
    (∀ a ∈ (plyifyLoop pt ps active done).1, a ≤ lastD c (ps.map Prod.fst)) ∧
    (∀ p ∈ (plyifyLoop pt ps active done).2, p.1 ≤ p.2) := by
  intro ps
  induction ps with
  | nil =>
    intro active done c h1 h2 _
    constructor
    · simpa [plyifyLoop, lastD] using h1
    · simpa [plyifyLoop] using h2
  | cons rt rest ih =>
    obtain ⟨ri, ti⟩ := rt
    intro active done c h1 h2 hch
    rw [List.map_cons, List.chain_cons] at hch
    obtain ⟨hcri, hch⟩ := hch
    have hop : ∀ a ∈ List.replicate (openCount ti pt - active.length) ri ++ active,
        a ≤ ri := by
      intro a ha
      rcases List.mem_append.mp ha with h | h
      · rw [List.eq_of_mem_replicate h]
      · exact le_trans (h1 a h) hcri
    have hd := drain_le ri ti pt
      (List.replicate (openCount ti pt - active.length) ri ++ active) done hop h2
    have hrec := ih (drain ri ti pt
        (List.replicate (openCount ti pt - active.length) ri ++ active) done).1
      (drain ri ti pt
        (List.replicate (openCount ti pt - active.length) ri ++ active) done).2
      ri hd.1 hd.2 hch
    simpa [plyifyLoop, lastD] using hrec

theorem drain_noop (ri ti pt : ℚ) (hpt : 0 < pt) (hti : 0 ≤ ti)
    (active : List ℚ) (done : List (ℚ × ℚ))
    (hlen : active.length = (Int.ceil (ti / pt)).toNat) :
    drain ri ti pt active done = (active, done) := by
  cases active with
  | nil => simp [drain]
  | cons a rest =>
    have hpos : 0 ≤ Int.ceil (ti / pt) := Int.ceil_nonneg (div_nonneg hti hpt.le)
    have hk : Int.ceil (ti / pt) = (rest.length : ℤ) + 1 := by
      simp only [List.length_cons] at hlen
      omega
    have h3 : (Int.ceil (ti / pt) : ℚ) = (rest.length : ℚ) + 1 := by
      exact_mod_cast congrArg (fun z : ℤ => (z : ℚ)) hk
    have h1 : (Int.ceil (ti / pt) : ℚ) < ti / pt + 1 := Int.ceil_lt_add_one _
    have hlt : (rest.length : ℚ) * pt < ti := by
      have h4 : (rest.length : ℚ) < ti / pt := by linarith
      exact (lt_div_iff₀ hpt).mp h4
    rw [drain, if_neg (not_le.mpr hlt)]

theorem plyifyLoop_sorted (pt : ℚ) (hpt : 0 < pt) :
    ∀ (ps : List (ℚ × ℚ)) (active : List ℚ) (done : List (ℚ × ℚ)) (tprev : ℚ),
    0 ≤ tprev → active.length = (Int.ceil (tprev / pt)).toNat →
    List.Chain (· ≤ ·) tprev (ps.map Prod.snd) →
    (plyifyLoop pt ps active done).2 = done ∧
    (plyifyLoop pt ps active done).1.length =
      (Int.ceil (lastD tprev (ps.map Prod.snd) / pt)).toNat := by
  intro ps
  induction ps with
  | nil =>
    intro active done tprev _ hlen _
    simp [plyifyLoop, lastD, hlen]
  | cons rt rest ih =>
    obtain ⟨ri, ti⟩ := rt
    intro active done tprev h0 hlen hch
    rw [List.map_cons, List.chain_cons] at hch
    obtain ⟨hle, hch⟩ := hch
    have hti : 0 ≤ ti := le_trans h0 hle
    have hdiv : tprev / pt ≤ ti / pt := by gcongr
    have hceil : Int.ceil (tprev / pt) ≤ Int.ceil (ti / pt) := Int.ceil_le_ceil hdiv
    have hoplen : (List.replicate (openCount ti pt - active.length) ri ++ active).length
        = (Int.ceil (ti / pt)).toNat := by
      simp only [List.length_append, List.length_replicate, openCount, hlen]
      omega
    have hdr := drain_noop ri ti pt hpt hti
      (List.replicate (openCount ti pt - active.length) ri ++ active) done hoplen
    have hrec := ih (List.replicate (openCount ti pt - active.length) ri ++ active)
      done ti hti hoplen hch
    simp only [plyifyLoop, hdr, lastD]
    simpa [lastD] using hrec

set_option maxRecDepth 8000 in
/-- C1 counterexample: the entry count of `plyify` is not
`floor(max(t) / ply_thickness)`.  A thickness of 1.5 ply thicknesses opens
two plies (round-up, contradicting the stated round-down policy), and a
thickness profile that dips to zero and recovers closes and reopens plies,
yielding four entries where the formula predicts two. -/
theorem plyify_floor_count_cex :
    (plyify [0, 1] [3/2, 3/2] 1 false).length = 2 ∧
    (Int.floor (listMaxL [3/2, 3/2] / 1)).toNat = 1 ∧
    (plyify [0, 1, 2] [2, 0, 2] 1 false).length = 4 ∧
    (Int.floor (listMaxL [2, 0, 2] / 1)).toNat = 2 := by
  have hc32 : Int.toNat ⌈(3/2 : ℚ)⌉ = 2 := by
    rw [show Int.ceil ((3:ℚ)/2) = 2 by rw [Int.ceil_eq_iff] <;> norm_num]
    decide
  have hc2 : Int.toNat ⌈(2 : ℚ)⌉ = 2 := by
    rw [show Int.ceil ((2:ℚ)) = 2 by rw [Int.ceil_eq_iff] <;> norm_num]
    decide
  have hc0 : Int.toNat ⌈(0 : ℚ)⌉ = 0 := by norm_num
  have h1 : plyify [0, 1] [3/2, 3/2] 1 false = [(0, 1), (0, 1)] := by
    norm_num [plyify, plyifyLoop, drain, openCount, hc32, List.replicate,
      roundMM_zero, roundMM_one]
  have h2 : plyify [0, 1, 2] [2, 0, 2] 1 false = [(2, 2), (2, 2), (0, 1), (0, 1)] := by
    norm_num [plyify, plyifyLoop, drain, openCount, hc2, hc0, List.replicate,
      roundMM_zero, roundMM_one, roundMM_two]
  have hf32 : Int.toNat ⌊(3/2 : ℚ)⌋ = 1 := by
    rw [show Int.floor ((3:ℚ)/2) = 1 by rw [Int.floor_eq_iff] <;> norm_num]
    decide
  have hf2 : Int.toNat ⌊(2 : ℚ)⌋ = 2 := by
    rw [show Int.floor ((2:ℚ)) = 2 by rw [Int.floor_eq_iff] <;> norm_num]
    decide
  refine ⟨by rw [h1]; rfl, ?_, by rw [h2]; rfl, ?_⟩ <;>
    (norm_num [listMaxL, hf32, hf2] <;> decide)

/-- C1 (amended): for ascending `r`, same-length non-negative `t` and
`ply_thickness > 0`, every `plyify` entry satisfies `start <= end` after
10 mm rounding; and when `t` is nondecreasing the entry count equals
`ceil(max(t) / ply_thickness)` — the scan opens a partially filled top ply
(round-up, not round-down), and for non-monotone `t` closed plies reopen,
so no count formula in `max(t)` alone applies. -/
theorem plyify_spec (r t : List ℚ) (pt : ℚ) (rev : Bool)
    (hr : List.Sorted (· ≤ ·) r) (hlen : r.length = t.length)
    (ht0 : ∀ x ∈ t, 0 ≤ x) (hpt : 0 < pt) :
    (∀ p ∈ plyify r t pt rev, p.1 ≤ p.2) ∧
    (List.Sorted (· ≤ ·) t →
      (plyify r t pt rev).length = (Int.ceil (listMaxL t / pt)).toNat) := by
  cases r with
  | nil =>
    have ht : t = [] := List.length_eq_zero.mp (by simpa using hlen.symm)
    subst ht
    constructor
    · intro p hp
      cases rev <;> simp [plyify, plyifyLoop] at hp
    · intro _
      cases rev <;> simp [plyify, plyifyLoop, listMaxL]
  | cons r₀ rs =>
    have hmapfst : (List.zip (r₀ :: rs) t).map Prod.fst = r₀ :: rs :=
      List.map_fst_zip _ t (le_of_eq hlen)
    have hchain : List.Chain (· ≤ ·) r₀ ((List.zip (r₀ :: rs) t).map Prod.fst) := by
      rw [hmapfst]
      exact List.chain_cons.mpr ⟨le_refl r₀, (List.chain_iff_pairwise).mpr hr⟩
    have hloop := plyifyLoop_le pt (List.zip (r₀ :: rs) t) [] [] r₀
      (by simp) (by simp) hchain
    have hlast : lastD r₀ ((List.zip (r₀ :: rs) t).map Prod.fst)
        = (r₀ :: rs).getLast?.getD 0 := by
      rw [hmapfst]
      exact lastD_ne_nil r₀ 0 _ (by simp)
    constructor
    · intro p hp
      have hp' : (∃ a ∈ (plyifyLoop pt ((r₀ :: rs).zip t) [] []).1,
            (roundMM a, roundMM ((r₀ :: rs).getLast?.getD 0)) = p) ∨
          ∃ a b, (a, b) ∈ (plyifyLoop pt ((r₀ :: rs).zip t) [] []).2 ∧
            (roundMM a, roundMM b) = p := by
        cases rev with
        | false => simpa [plyify] using hp
        | true =>
          have h' : (∃ a b, (a, b) ∈ (plyifyLoop pt ((r₀ :: rs).zip t) [] []).2 ∧
              (roundMM a, roundMM b) = p) ∨
              ∃ a ∈ (plyifyLoop pt ((r₀ :: rs).zip t) [] []).1,
                (roundMM a, roundMM ((r₀ :: rs).getLast?.getD 0)) = p := by
            simpa [plyify] using hp
          exact h'.symm
      rcases hp' with ⟨a, ha, rfl⟩ | ⟨a, b, hab, rfl⟩
      · have hb := hloop.1 a ha
        rw [hlast] at hb
        exact roundMM_mono hb
      · exact roundMM_mono (hloop.2 (a, b) hab)
    · intro hts
      cases t with
      | nil => simp at hlen
      | cons t₀ ts =>
        have hmapsnd : (List.zip (r₀ :: rs) (t₀ :: ts)).map Prod.snd = t₀ :: ts :=
          List.map_snd_zip _ _ (le_of_eq hlen.symm)
        have hchain0 : List.Chain (· ≤ ·) 0
            ((List.zip (r₀ :: rs) (t₀ :: ts)).map Prod.snd) := by
          rw [hmapsnd]
          exact List.chain_cons.mpr
            ⟨ht0 t₀ (List.mem_cons_self _ _), (List.chain_iff_pairwise).mpr hts⟩
        have hsorted := plyifyLoop_sorted pt hpt (List.zip (r₀ :: rs) (t₀ :: ts))
          [] [] 0 le_rfl (by simp) hchain0
        have hlen2 : (plyify (r₀ :: rs) (t₀ :: ts) pt rev).length =
            (plyifyLoop pt ((r₀ :: rs).zip (t₀ :: ts)) [] []).2.length +
            (plyifyLoop pt ((r₀ :: rs).zip (t₀ :: ts)) [] []).1.length := by
          cases rev <;> simp [plyify, Nat.add_comm]
        rw [hlen2, hsorted.1, hsorted.2]
        have hmax : lastD 0 ((List.zip (r₀ :: rs) (t₀ :: ts)).map Prod.snd)
            = listMaxL (t₀ :: ts) := by
          rw [hmapsnd]
          show lastD t₀ ts = listMaxL (t₀ :: ts)
          rw [show listMaxL (t₀ :: ts) = ts.foldl max t₀ from rfl,
            foldl_max_of_chain ts t₀ ((List.chain_iff_pairwise).mpr hts)]
        rw [hmax]
        simp

/-- C1 witness: the amended statement at `r = [0, 1]`, `t = [0, 1.5]`,
`ply_thickness = 1`: both entries satisfy `start <= end` and the count is
`ceil(1.5) = 2`. -/
theorem plyify_spec_witness :
    (∀ p ∈ plyify [0, 1] [0, 3/2] 1 false, p.1 ≤ p.2) ∧
    (plyify [0, 1] [0, 3/2] 1 false).length
      = (Int.ceil (listMaxL [0, 3/2] / 1)).toNat := by
  have h := plyify_spec [0, 1] [0, 3/2] 1 false
    (by norm_num [List.sorted_cons]) rfl
    (by intro x hx
        rcases List.mem_cons.mp hx with h | h
        · rw [h]
        · simp only [List.mem_singleton] at h
          rw [h]
          norm_num)
    (by norm_num)
  exact ⟨h.1, h.2 (by norm_num [List.sorted_cons])⟩

/-! Claims about `number_stack`. -/

/-- C2 counterexample: numpy's half-to-even rounding makes both split
counts of a 3-ply stack with `splitstack = [0.5, 0.5]` round `1.5` up to 2,
so `number_stack` returns 4 ids for a 3-entry stack — the invariant
`len(numbering) == len(stack)` fails. -/
theorem number_stack_length_cex :
    number_stack ([0, 0, 0] : List ℕ) (1/2, 1/2) (0, 4000) (1, -1)
      = some [0, 4000, 1, 3999] ∧
    ([0, 4000, 1, 3999] : List ℤ).length = 4 ∧
    ([0, 0, 0] : List ℕ).length = 3 := by
  refine ⟨?_, rfl, rfl⟩
  have h2 : List.range 2 = [0, 1] := rfl
  norm_num [number_stack, seqArith, interleave, roundHalfEven, Int.fract, h2,
    Int.toNat_ofNat]

/-- C2 (amended): with split fractions summing to exactly 1, `number_stack`
returns the one-for-one interleaving of the two arithmetic id sequences
whose lengths are the half-to-even roundings of `len(stack) * split`; the
id count is the sum of those two roundings, which equals `len(stack)`
whenever the fractions are non-negative and `len(stack) * split[0]` is not
exactly half-way between two integers — but can exceed it by one on such
ties (both halves rounding to the same even side). -/
theorem number_stack_spec {α : Type} (stack : List α) (s0 s1 : ℚ)
    (k0 k1 i0 i1 : ℤ) (hsum : s0 + s1 = 1) :
    number_stack stack (s0, s1) (k0, k1) (i0, i1) =
      some (interleave
        (seqArith k0 i0 (roundHalfEven ((stack.length : ℚ) * s0)).toNat)
        (seqArith k1 i1 (roundHalfEven ((stack.length : ℚ) * s1)).toNat)) ∧
    (interleave
        (seqArith k0 i0 (roundHalfEven ((stack.length : ℚ) * s0)).toNat)
        (seqArith k1 i1 (roundHalfEven ((stack.length : ℚ) * s1)).toNat)).length =
      (roundHalfEven ((stack.length : ℚ) * s0)).toNat +
      (roundHalfEven ((stack.length : ℚ) * s1)).toNat ∧
    (0 ≤ s0 → 0 ≤ s1 → Int.fract ((stack.length : ℚ) * s0) ≠ 1/2 →
      (roundHalfEven ((stack.length : ℚ) * s0)).toNat +
      (roundHalfEven ((stack.length : ℚ) * s1)).toNat = stack.length) := by
  refine ⟨?_, ?_, ?_⟩
  · simp [number_stack, hsum]
  · rw [interleave_length, seqArith_length, seqArith_length]
  · intro h0 h1 hfr
    have hxy : (stack.length : ℚ) * s0 + (stack.length : ℚ) * s1
        = ((stack.length : ℤ) : ℚ) := by
      push_cast
      calc (stack.length : ℚ) * s0 + (stack.length : ℚ) * s1
          = (stack.length : ℚ) * (s0 + s1) := by ring
        _ = (stack.length : ℚ) := by rw [hsum, mul_one]
    have hadd := roundHalfEven_add_int hxy hfr
    have ha : 0 ≤ roundHalfEven ((stack.length : ℚ) * s0) :=
      roundHalfEven_nonneg (mul_nonneg (Nat.cast_nonneg _) h0)
    have hb : 0 ≤ roundHalfEven ((stack.length : ℚ) * s1) :=
      roundHalfEven_nonneg (mul_nonneg (Nat.cast_nonneg _) h1)
    omega

/-- C2 witness: a 5-entry stack with splits 3/5 and 2/5 gets sequences of
lengths 3 and 2 and exactly 5 ids. -/
theorem number_stack_spec_witness :
    number_stack ([0, 1, 2, 3, 4] : List ℕ) (3/5, 2/5) (0, 4000) (1, -1) =
      some (interleave
        (seqArith 0 1 (roundHalfEven ((([0, 1, 2, 3, 4] : List ℕ).length : ℚ) * (3/5))).toNat)
        (seqArith 4000 (-1) (roundHalfEven ((([0, 1, 2, 3, 4] : List ℕ).length : ℚ) * (2/5))).toNat)) ∧
    (roundHalfEven ((([0, 1, 2, 3, 4] : List ℕ).length : ℚ) * (3/5))).toNat +
    (roundHalfEven ((([0, 1, 2, 3, 4] : List ℕ).length : ℚ) * (2/5))).toNat =
    ([0, 1, 2, 3, 4] : List ℕ).length := by
  have h := number_stack_spec ([0, 1, 2, 3, 4] : List ℕ) (3/5) (2/5) 0 4000 1 (-1)
    (by norm_num)
  refine ⟨h.1, h.2.2 (by norm_num) (by norm_num) ?_⟩
  have h5 : (([0, 1, 2, 3, 4] : List ℕ).length : ℚ) * (3/5) = ((3 : ℤ) : ℚ) := by
    norm_num
  rw [h5, Int.fract_intCast]
  norm_num

/-- C3: `number_stack` aborts the run (returns `none`) exactly when the two
split fractions do not sum to 1; when they do, a numbering is returned. -/
theorem number_stack_abort_iff {α : Type} (stack : List α) (sp : ℚ × ℚ)
    (k inc : ℤ × ℤ) :
    number_stack stack sp k inc = none ↔ sp.1 + sp.2 ≠ 1 := by
  unfold number_stack
  split_ifs with h <;> simp [h]

/-- C10: `number_stack` reads nothing from the stack but its length: two
stacks of equal length (of any element types) receive identical numberings
for the same split, key and increment parameters. -/
theorem number_stack_length_only {α β : Type} (s1 : List α) (s2 : List β)
    (sp : ℚ × ℚ) (k inc : ℤ × ℤ) (h : s1.length = s2.length) :
    number_stack s1 sp k inc = number_stack s2 sp k inc := by
  unfold number_stack
  rw [h]

/-- C10 witness: a stack of numbers and a stack of booleans of length 3
are numbered identically. -/
theorem number_stack_length_only_witness :
    number_stack ([10, 20, 30] : List ℕ) (1/2, 1/2) (0, 4000) (1, -1) =
      number_stack ([true, false, true] : List Bool) (1/2, 1/2) (0, 4000) (1, -1) :=
  number_stack_length_only [10, 20, 30] [true, false, true] (1/2, 1/2) (0, 4000)
    (1, -1) rfl

/-! Claim about `coreblock`. -/

/-- C4: for equal-length `r` and `t`, `coreblock` emits one segment per
consecutive pair with positive computed thickness (the endpoint value when
both agree, their mean otherwise), every emitted segment has positive
thickness, at most `len(r) - 1` segments are emitted, and the output is an
order-preserving selection of the consecutive-pair list. -/
theorem coreblock_spec (r t : List ℚ) (m : ℤ) (hlen : r.length = t.length) :
    (∀ e ∈ coreblock r t m, 0 < e.2.1) ∧
    (coreblock r t m).length =
      (coreblockPairs r t).countP (fun q => decide (0 < segThickness q.2.1 q.2.2)) ∧
    (coreblock r t m).length ≤ r.length - 1 ∧
    (coreblock r t m).Sublist ((coreblockPairs r t).map
      (fun q => (m, segThickness q.2.1 q.2.2, q.1.1, q.1.2))) := by
  refine ⟨?_, ?_, ?_, ?_⟩
  · intro e he
    unfold coreblock at he
    rcases List.mem_filterMap.mp he with ⟨q, _, hsome⟩
    split_ifs at hsome with h
    · cases Option.some_inj.mp hsome
      exact h
  · exact filterMapIf_length _ _ _
  · calc (coreblock r t m).length
        = (coreblockPairs r t).countP
            (fun q => decide (0 < segThickness q.2.1 q.2.2)) :=
          filterMapIf_length _ _ _
      _ ≤ (coreblockPairs r t).length := List.countP_le_length _
      _ ≤ r.length - 1 := by
          simp only [coreblockPairs, List.length_zip, List.length_tail, hlen]
          omega
  · exact filterMapIf_sublist _ _ _

/-- C4 witness: scenario `r = [0, 1, 2]`, `t = [0, 2, 2]` with material 7:
the three conjuncts at a concrete input (the first pair is averaged to
thickness 1, the second keeps thickness 2). -/
theorem coreblock_spec_witness :
    (coreblock [0, 1, 2] [0, 2, 2] 7).length =
      (coreblockPairs [0, 1, 2] [0, 2, 2]).countP
        (fun q => decide (0 < segThickness q.2.1 q.2.2)) ∧
    (coreblock [0, 1, 2] [0, 2, 2] 7).length ≤ ([0, 1, 2] : List ℚ).length - 1 := by
  have h := coreblock_spec [0, 1, 2] [0, 2, 2] 7 rfl
  exact ⟨h.2.1, h.2.2.1⟩

/-! Claim C5: the ply-stack / interpolated-thickness round trip. -/

theorem linInterp_const (x a b c : ℚ) : linInterp x [a, b] [c, c] = c := by
  simp only [linInterp]
  split_ifs <;> simp

theorem linspace_head (lo hi : ℚ) :
    linspace lo hi 5000 = lo :: (List.map
      (fun (i : ℕ) => lo + (hi - lo) * (i : ℚ) / (((4999 + 1 : ℕ) : ℚ) - 1))
      (List.map Nat.succ (List.range 4999))) := by
  unfold linspace
  rw [show (5000 : ℕ) = 4999 + 1 from rfl, List.range_succ_eq_map, List.map_cons]
  norm_num

theorem linspace_getLast (lo hi : ℚ) :
    (linspace lo hi 5000).getLast?.getD 0 = hi := by
  unfold linspace
  rw [show (5000 : ℕ) = 4999 + 1 from rfl, List.range_succ, List.map_append,
    List.map_singleton, List.getLast?_concat]
  show lo + (hi - lo) * ((4999 : ℕ) : ℚ) / (((4999 + 1 : ℕ) : ℚ) - 1) = hi
  push_cast
  rw [show ((5000 : ℚ) - 1) = 4999 by norm_num, mul_div_assoc,
    show ((4999 : ℚ) / 4999) = 1 by norm_num, mul_one]
  ring

theorem zip_self_map_const {γ : Type} (l : List ℚ) (c : γ) :
    l.zip (l.map (fun _ => c)) = l.map (fun xi => (xi, c)) := by
  induction l with
  | nil => rfl
  | cons x xs ih =>
    rw [List.map_cons, List.map_cons, List.zip_cons_cons, ih]

theorem plyifyLoop_constt (pt c : ℚ) (hpt : 0 < pt) (hc : 0 ≤ c) :
    ∀ (xs : List ℚ) (active : List ℚ) (done : List (ℚ × ℚ)),
    active.length = (Int.ceil (c / pt)).toNat →
    plyifyLoop pt (xs.map (fun x => (x, c))) active done = (active, done) := by
  intro xs
  induction xs with
  | nil => intro active done _; simp [plyifyLoop]
  | cons x xs ih =>
    intro active done hlen
    have hop : List.replicate (openCount c pt - active.length) x ++ active
        = active := by
      simp [openCount, hlen]
    rw [List.map_cons]
    simp only [plyifyLoop, hop, drain_noop x c pt hpt hc active done hlen]
    exact ih active done hlen

theorem plyifyLoop_const_start (pt c a : ℚ) (hpt : 0 < pt) (hc : 0 ≤ c)
    (tl : List ℚ) :
    plyifyLoop pt ((a, c) :: tl.map (fun x => (x, c))) [] []
      = (List.replicate (Int.ceil (c / pt)).toNat a, []) := by
  have hk : (List.replicate (Int.ceil (c / pt)).toNat a).length
      = (Int.ceil (c / pt)).toNat := List.length_replicate _ _
  have hop : List.replicate (openCount c pt - List.length ([] : List ℚ)) a
      ++ ([] : List ℚ) = List.replicate (Int.ceil (c / pt)).toNat a := by
    simp [openCount]
  simp only [plyifyLoop, hop, drain_noop a c pt hpt hc _ [] hk]
  exact plyifyLoop_constt pt c hpt hc tl _ [] hk

theorem ply_stack_const (a b c pt : ℚ) (m : ℤ) (hab : a ≤ b) (hpt : 0 < pt)
    (hc : 0 ≤ c) :
    ply_stack [a, b] [c, c] pt false 5000 m =
      List.replicate (Int.ceil (c / pt)).toNat (m, pt, roundMM a, roundMM b) := by
  have hmin : listMinL [a, b] = a := by
    simp only [listMinL, List.foldl_cons, List.foldl_nil]
    exact min_eq_left hab
  have hmax : listMaxL [a, b] = b := by
    simp only [listMaxL, List.foldl_cons, List.foldl_nil]
    exact max_eq_right hab
  simp only [ply_stack]
  rw [hmin, hmax]
  have hy : (linspace a b 5000).map (fun xi => linInterp xi [a, b] [c, c])
      = (linspace a b 5000).map (fun _ => c) := by
    simp only [linInterp_const]
  rw [hy]
  simp only [plyify]
  rw [zip_self_map_const, linspace_getLast, linspace_head, List.map_cons,
    plyifyLoop_const_start pt c a hpt hc _]
  simp [List.nil_append, List.reverse_replicate, List.map_replicate]

theorem totalPly_replicate (k : ℕ) (m : ℤ) (pt ra rb s : ℚ)
    (h1 : ra ≤ s) (h2 : s ≤ rb) :
    totalPlyThickness (List.replicate k (m, pt, ra, rb)) s = (k : ℚ) * pt := by
  induction k with
  | zero => simp [totalPlyThickness]
  | succ n ih =>
    unfold totalPlyThickness at ih ⊢
    have hc : (decide ((m, pt, ra, rb).2.2.1 ≤ s ∧ s ≤ (m, pt, ra, rb).2.2.2))
        = true := by simp [h1, h2]
    rw [List.replicate_succ, List.filter_cons, if_pos hc, List.map_cons,
      List.sum_cons, ih]
    push_cast
    ring

/-- C5 counterexample: a slab of constant thickness 1.5 ply thicknesses over
`[0, 1]` is planned as 2 full plies, so the stacked thickness at station 0.5
is 2 while the interpolated slab thickness there is 1.5 — the difference of
half a ply thickness is far beyond floating tolerance, refuting the
round-trip property. -/
theorem ply_stack_roundtrip_cex :
    totalPlyThickness (ply_stack [0, 1] [3/2, 3/2] 1 false 5000 11) (1/2) = 2 ∧
    linInterp (1/2) [0, 1] [3/2, 3/2] = 3/2 := by
  constructor
  · rw [ply_stack_const 0 1 (3/2) 1 11 (by norm_num) (by norm_num) (by norm_num),
      roundMM_zero, roundMM_one,
      totalPly_replicate _ 11 1 0 1 (1/2) (by norm_num) (by norm_num)]
    rw [show Int.ceil ((3/2 : ℚ) / 1) = 2 by
      rw [div_one, Int.ceil_eq_iff] <;> norm_num]
    rw [show Int.toNat 2 = 2 by decide]
    norm_num
  · exact linInterp_const (1/2) 0 1 (3/2)

/-- C5 (amended): for a slab of constant thickness `c` over `[a, b]` planned
with draping mode plies, the total stacked ply thickness at every station in
the rounded span is `ceil(c / ply_thickness) * ply_thickness` — the plan
covers the interpolated thickness `c` exactly only when `c` is a whole
multiple of the ply thickness, and otherwise exceeds it by up to one ply;
the round-trip equality within floating tolerance does not hold in
general. -/
theorem ply_stack_roundtrip_const (a b c pt s : ℚ) (m : ℤ)
    (hab : a ≤ b) (hpt : 0 < pt) (hc : 0 ≤ c)
    (h1 : roundMM a ≤ s) (h2 : s ≤ roundMM b) :
    totalPlyThickness (ply_stack [a, b] [c, c] pt false 5000 m) s
      = ((Int.ceil (c / pt)).toNat : ℚ) * pt ∧
    linInterp s [a, b] [c, c] = c := by
  constructor
  · rw [ply_stack_const a b c pt m hab hpt hc]
    exact totalPly_replicate _ m pt _ _ s h1 h2
  · exact linInterp_const s a b c

/-- C5 witness: the amended statement for a one-ply-thick slab over `[0, 2]`
at station 1: the stack provides exactly one ply thickness there. -/
theorem ply_stack_roundtrip_const_witness :
    totalPlyThickness (ply_stack [0, 2] [1, 1] 1 false 5000 5) 1
      = ((Int.ceil ((1 : ℚ) / 1)).toNat : ℚ) * 1 ∧
    linInterp 1 [0, 2] [1, 1] = 1 :=
  ply_stack_roundtrip_const 0 2 1 1 1 5 (by norm_num) (by norm_num) (by norm_num)
    (by rw [roundMM_zero]; norm_num) (by rw [roundMM_two]; norm_num)

/-! Claims about `material_db_to_ccx`. -/

/-- C6 failing input: a material entry carrying a fibre volume fraction
`vf` (here together with a stiffness matrix) is emitted as an orthotropic
card even though `force_iso` is set.  Python operator precedence parses the
selection condition as `"vf" in props or ("C" in props and not force_iso)`,
so `force_iso` never reaches the `vf` disjunct — contradicting the
documented behaviour that `force_iso` selects the isotropic model for
every material. -/
theorem material_db_vf_force_iso_bug :
    material_db_to_ccx [1]
      [(1, MatProps.mk "ud" (some (1/2)) (some (fun _ _ => 1)) none none none
          none none none none none none none none none)] true
      = some [CcxCard.ortho 1 (List.replicate 9 1000000)] := by
  norm_num [material_db_to_ccx, emitCard, pyInt, orthoVals, upd, List.filter,
    List.lookup, List.mapM, List.mapM.loop, List.replicate]

/-- C7: a material whose database entry carries only isotropic properties
(Young's modulus `E` and Poisson's ratio `nu`) yields exactly one material
card, of isotropic type, with the ratio clamped into `[0.1, 0.45]`
silently — for any `force_iso` setting and any resolved id above the
near-zero threshold. -/
theorem material_iso_card (i Ev nuv : ℚ) (nm : String) (fiso : Bool)
    (hi : (1 : ℚ)/1000000 < i) :
    material_db_to_ccx [i]
      [(pyInt i, MatProps.mk nm none none none none none none none none none
          none none (some nuv) none (some Ev))] fiso
      = some [CcxCard.iso (pyInt i) (1000000 * Ev)
          (min (45/100) (max (1/10) nuv))] ∧
    (1 : ℚ)/10 ≤ min (45/100) (max (1/10) nuv) ∧
    min (45/100) (max (1/10) nuv) ≤ 45/100 := by
  have hi' : (1000000 : ℚ)⁻¹ < i := by rwa [← one_div]
  refine ⟨?_, le_min (by norm_num) (le_trans (by norm_num) (le_max_left (1/10) nuv)),
    min_le_left _ _⟩
  simp [material_db_to_ccx, emitCard, List.filter_cons, hi', List.lookup,
    List.mapM, List.mapM.loop, beq_self_eq_true]

/-- C7 witness: id 1, `E = 70000`, `nu = 0.7`: one isotropic card with the
out-of-range ratio silently clamped to 0.45. -/
theorem material_iso_card_witness :
    material_db_to_ccx [1]
      [(pyInt 1, MatProps.mk "resin" none none none none none none none none
          none none none (some (7/10)) none (some 70000))] true
      = some [CcxCard.iso (pyInt 1) (1000000 * 70000)
          (min (45/100) (max (1/10) (7/10)))] ∧
    (1 : ℚ)/10 ≤ min (45/100) (max (1/10) (7/10)) ∧
    min ((45 : ℚ)/100) (max (1/10) (7/10)) ≤ 45/100 :=
  material_iso_card 1 70000 (7/10) "resin" true (by norm_num)

/-! Claim C8: loadcase blocks. -/

theorem cloadLinesFrom_mem (ld : List (ℚ × ℚ × ℚ)) : ∀ (n : ℕ) (l : CloadLine),
    l ∈ cloadLinesFrom n ld →
    (l.dof = 1 ∨ l.dof = 2) ∧ l.value ^ 2 > 1/100000000 := by
  induction ld with
  | nil => intro n l h; simp [cloadLinesFrom] at h
  | cons j rest ih =>
    intro n l h
    simp only [cloadLinesFrom] at h
    rcases List.mem_append.mp h with h12 | h3
    · rcases List.mem_append.mp h12 with ha | hb
      · split_ifs at ha with hx
        · have he : l = ⟨n + 1, 1, j.1⟩ := by simpa using ha
          subst he
          exact ⟨Or.inl rfl, hx⟩
        · simp at ha
      · split_ifs at hb with hx
        · have he : l = ⟨n + 1, 2, j.2.1⟩ := by simpa using hb
          subst he
          exact ⟨Or.inr rfl, hx⟩
        · simp at hb
    · exact ih (n + 1) l h3

theorem cloadLinesFrom_complete (ld : List (ℚ × ℚ × ℚ)) :
    ∀ (n k : ℕ) (v : ℚ × ℚ × ℚ), ld.get? k = some v →
    (v.1 ^ 2 > 1/100000000 → CloadLine.mk (n + k + 1) 1 v.1 ∈ cloadLinesFrom n ld) ∧
    (v.2.1 ^ 2 > 1/100000000 →
      CloadLine.mk (n + k + 1) 2 v.2.1 ∈ cloadLinesFrom n ld) := by
  induction ld with
  | nil => intro n k v h; simp at h
  | cons j rest ih =>
    intro n k v h
    cases k with
    | zero =>
      have hv : j = v := by simpa using h
      subst hv
      constructor
      · intro hx
        show CloadLine.mk (n + 0 + 1) 1 j.1 ∈ cloadLinesFrom n (j :: rest)
        simp only [cloadLinesFrom]
        apply List.mem_append.mpr
        left
        apply List.mem_append.mpr
        left
        rw [if_pos hx]
        simp
      · intro hx
        show CloadLine.mk (n + 0 + 1) 2 j.2.1 ∈ cloadLinesFrom n (j :: rest)
        simp only [cloadLinesFrom]
        apply List.mem_append.mpr
        left
        apply List.mem_append.mpr
        right
        rw [if_pos hx]
        simp
    | succ k' =>
      have h' : rest.get? k' = some v := by simpa using h
      have hi := ih (n + 1) k' v h'
      constructor
      · intro hx
        have hm := hi.1 hx
        have hidx : n + (k' + 1) + 1 = (n + 1) + k' + 1 := by omega
        rw [hidx]
        simp only [cloadLinesFrom]
        exact List.mem_append.mpr (Or.inr hm)
      · intro hx
        have hm := hi.2 hx
        have hidx : n + (k' + 1) + 1 = (n + 1) + k' + 1 := by omega
        rw [hidx]
        simp only [cloadLinesFrom]
        exact List.mem_append.mpr (Or.inr hm)

theorem mulOne_map (l : List (ℚ × ℚ × ℚ)) :
    l.map (fun v => ((1 : ℚ) * v.1, (1 : ℚ) * v.2.1, (1 : ℚ) * v.2.2)) = l := by
  simp

/-- C8 counterexample: a loadcase field whose only force is the third
(z) component gets an empty `*cload` block even though that component's
squared magnitude (25) is far above the `1e-8` threshold: the node scan
writes lines only for components 1 and 2. -/
theorem get_loadcases_z_cex :
    get_loadcases [("lc_edge", [((0 : ℚ), (0 : ℚ), (5 : ℚ))])] =
      [("lc_edge", Loadcase.mk "** lc_edge\n*step\n*static\n*cload\n" [] ccxLcFooter)] ∧
    ((5 : ℚ)) ^ 2 > 1/100000000 := by
  constructor
  · norm_num [get_loadcases, isLc, cloadLinesFrom, List.filterMap_cons]
    rfl
  · norm_num

/-- C8 (amended): `get_loadcases` produces one loadcase block per
point-data field with the `lc_` prefix, each consisting of the step
header, one concentrated-load line per first (x) and second (y) force
component whose square exceeds `1e-8` — the third (z) component is never
emitted — followed by the constant output-request cards. -/
theorem get_loadcases_spec (pd : List (String × List (ℚ × ℚ × ℚ))) :
    (get_loadcases pd).length = pd.countP (fun f => decide (isLc f.1 = true)) ∧
    (∀ p ∈ get_loadcases pd, p.2.footer = ccxLcFooter ∧
        ∀ l ∈ p.2.cloads, (l.dof = 1 ∨ l.dof = 2) ∧ l.value ^ 2 > 1/100000000) ∧
    (∀ f ∈ pd, isLc f.1 = true →
        (f.1, Loadcase.mk ("** " ++ f.1 ++ "\n*step\n*static\n*cload\n")
            (cloadLinesFrom 0 f.2) ccxLcFooter) ∈ get_loadcases pd ∧
        ∀ (k : ℕ) (v : ℚ × ℚ × ℚ), f.2.get? k = some v →
          (v.1 ^ 2 > 1/100000000 →
            CloadLine.mk (k + 1) 1 v.1 ∈ cloadLinesFrom 0 f.2) ∧
          (v.2.1 ^ 2 > 1/100000000 →
            CloadLine.mk (k + 1) 2 v.2.1 ∈ cloadLinesFrom 0 f.2)) := by
  refine ⟨?_, ?_, ?_⟩
  · exact filterMapIf_length _ _ _
  · intro p hp
    simp only [get_loadcases] at hp
    rcases List.mem_filterMap.mp hp with ⟨f, _, hsome⟩
    split_ifs at hsome with h
    · cases Option.some_inj.mp hsome
      refine ⟨rfl, ?_⟩
      intro l hl
      rw [mulOne_map] at hl
      exact cloadLinesFrom_mem _ 0 l hl
  · intro f hf hl
    constructor
    · simp only [get_loadcases]
      apply List.mem_filterMap.mpr
      exact ⟨f, hf, by rw [if_pos hl, mulOne_map]⟩
    · intro k v hv
      have h := cloadLinesFrom_complete f.2 0 k v hv
      constructor
      · intro hx
        simpa using h.1 hx
      · intro hx
        simpa using h.2 hx

/-! Claim C9: the root clamp. -/

theorem foldlMin_le (l : List (ℚ × ℚ × ℚ)) : ∀ (a : ℚ),
    (l.foldl (fun m q => min m q.2.2) a) ≤ a ∧
    ∀ p ∈ l, (l.foldl (fun m q => min m q.2.2) a) ≤ p.2.2 := by
  induction l with
  | nil => intro a; exact ⟨le_refl a, by simp⟩
  | cons q rest ih =>
    intro a
    constructor
    · exact le_trans (ih (min a q.2.2)).1 (min_le_left _ _)
    · intro p hp
      rcases List.mem_cons.mp hp with he | hm
      · subst he
        exact le_trans (ih (min a p.2.2)).1 (min_le_right _ _)
      · exact (ih (min a q.2.2)).2 p hm

theorem foldlMin_mem (l : List (ℚ × ℚ × ℚ)) : ∀ (a : ℚ),
    l.foldl (fun m q => min m q.2.2) a = a ∨
    ∃ p ∈ l, l.foldl (fun m q => min m q.2.2) a = p.2.2 := by
  induction l with
  | nil => intro a; exact Or.inl rfl
  | cons q rest ih =>
    intro a
    rcases ih (min a q.2.2) with h | ⟨p, hp, he⟩
    · rcases min_cases a q.2.2 with ⟨he2, _⟩ | ⟨he2, _⟩
      · left
        rw [List.foldl_cons, h, he2]
      · right
        exact ⟨q, List.mem_cons_self _ _, by rw [List.foldl_cons, h, he2]⟩
    · right
      exact ⟨p, List.mem_cons_of_mem _ hp, by rw [List.foldl_cons]; exact he⟩

theorem rootClampFrom_iff (zmin : ℚ) : ∀ (pts : List (ℚ × ℚ × ℚ)) (n : ℕ)
    (l : ℕ × ℕ × ℕ),
    l ∈ rootClampFrom zmin n pts ↔
      ∃ (k : ℕ) (p : ℚ × ℚ × ℚ), pts.get? k = some p ∧ p.2.2 = zmin ∧
        l = (n + k + 1, 1, 3) := by
  intro pts
  induction pts with
  | nil => intro n l; simp [rootClampFrom]
  | cons p rest ih =>
    intro n l
    constructor
    · intro h
      simp only [rootClampFrom] at h
      rcases List.mem_append.mp h with h1 | h2
      · split_ifs at h1 with hz
        · have he : l = (n + 1, 1, 3) := by simpa using h1
          exact ⟨0, p, by simp, hz, by simpa using he⟩
        · simp at h1
      · rcases (ih (n + 1) l).mp h2 with ⟨k, q, hq, hz, he⟩
        refine ⟨k + 1, q, by simpa using hq, hz, ?_⟩
        rw [he]
        have : n + 1 + k + 1 = n + (k + 1) + 1 := by omega
        rw [this]
    · rintro ⟨k, q, hq, hz, rfl⟩
      cases k with
      | zero =>
        have hv : p = q := by simpa using hq
        subst hv
        simp only [rootClampFrom]
        apply List.mem_append.mpr
        left
        rw [if_pos hz]
        simp
      | succ k' =>
        have hq' : rest.get? k' = some q := by simpa using hq
        simp only [rootClampFrom]
        apply List.mem_append.mpr
        right
        apply (ih (n + 1) _).mpr
        refine ⟨k', q, hq', hz, ?_⟩
        have : n + (k' + 1) + 1 = n + 1 + k' + 1 := by omega
        rw [this]

theorem rootClampFrom_length (zmin : ℚ) : ∀ (pts : List (ℚ × ℚ × ℚ)) (n : ℕ),
    (rootClampFrom zmin n pts).length
      = pts.countP (fun p => decide (p.2.2 = zmin)) := by
  intro pts
  induction pts with
  | nil => intro n; rfl
  | cons p rest ih =>
    intro n
    simp only [rootClampFrom, List.length_append, ih (n + 1), List.countP_cons]
    by_cases h : p.2.2 = zmin <;> simp [h] <;> omega

/-- C9: `root_clamp` emits one boundary line per node whose z coordinate
equals the global minimum (`minZ` really is the minimum, and it is
attained), and every line constrains exactly degrees of freedom 1 through
3 — never the rotational degrees 4 to 6. -/
theorem root_clamp_spec (pts : List (ℚ × ℚ × ℚ)) (hne : pts ≠ []) :
    (∀ l ∈ root_clamp pts, l.2.1 = 1 ∧ l.2.2 = 3) ∧
    (∀ p ∈ pts, minZ pts ≤ p.2.2) ∧
    (∃ p ∈ pts, p.2.2 = minZ pts) ∧
    (root_clamp pts).length = pts.countP (fun p => decide (p.2.2 = minZ pts)) ∧
    (∀ l, l ∈ root_clamp pts ↔
      ∃ (k : ℕ) (p : ℚ × ℚ × ℚ), pts.get? k = some p ∧ p.2.2 = minZ pts ∧
        l = (k + 1, 1, 3)) := by
  obtain ⟨p0, rest, rfl⟩ := List.exists_cons_of_ne_nil hne
  refine ⟨?_, ?_, ?_, ?_, ?_⟩
  · intro l hl
    rcases (rootClampFrom_iff _ _ 0 l).mp hl with ⟨k, p, _, _, rfl⟩
    exact ⟨rfl, rfl⟩
  · intro p hp
    rcases List.mem_cons.mp hp with he | hm
    · subst he
      exact (foldlMin_le rest p.2.2).1
    · exact (foldlMin_le rest p0.2.2).2 p hm
  · rcases foldlMin_mem rest p0.2.2 with h | ⟨p, hp, he⟩
    · exact ⟨p0, List.mem_cons_self _ _, h.symm⟩
    · exact ⟨p, List.mem_cons_of_mem _ hp, he.symm⟩
  · exact rootClampFrom_length _ _ 0
  · intro l
    have h := rootClampFrom_iff (minZ (p0 :: rest)) (p0 :: rest) 0 l
    simpa using h

/-- C9 witness: a 3-node mesh with minimum z attained at nodes 2 and 3:
the boundary-line count equals the count of minimum-z nodes. -/
theorem root_clamp_spec_witness :
    (root_clamp [((0:ℚ), (0:ℚ), (1:ℚ)), ((0:ℚ), (0:ℚ), (0:ℚ)),
        ((1:ℚ), (1:ℚ), (0:ℚ))]).length
      = ([((0:ℚ), (0:ℚ), (1:ℚ)), ((0:ℚ), (0:ℚ), (0:ℚ)),
          ((1:ℚ), (1:ℚ), (0:ℚ))]).countP
          (fun p => decide (p.2.2 = minZ [((0:ℚ), (0:ℚ), (1:ℚ)),
            ((0:ℚ), (0:ℚ), (0:ℚ)), ((1:ℚ), (1:ℚ), (0:ℚ))])) :=
  (root_clamp_spec _ (by simp)).2.2.2.1
